import Mathlib

/-!
A shallow embedding of the task-tracker program in `src/main.rs` and proofs
about its task store (`TaskManager`).

Modelling conventions:
* Rust `String` / `&str` values are modelled as `List Char`; the backing file
  is `Option (List Char)` (`none` = the file does not exist).
* `u32` arithmetic is modelled as `Nat` with an explicit `% 2^32` at the two
  places the source can overflow (`next_id += 1` in `add_task` and `id + 1`
  in `load_from_file`), i.e. the wrap-around semantics of a release build;
  a debug build would panic at exactly those points instead.  `u32` parsing
  (`str::parse::<u32>`) rejects values `≥ 2^32` in every build mode.
* `HashMap<u32, Task>` is modelled as a `List Task` keyed by `Task.id` whose
  keys stay unique (an invariant proved below); `insert` replaces in place
  or appends, `remove` filters, iteration order of `.values()` is the list
  order, and theorems that depend on iteration order quantify over
  permutations, since the source's `HashMap` order is unspecified.
* Every store operation returns the new `TaskManager` state together with
  the text it prints (`println!`); all the Rust methods return `()`, so this
  printed output is the only information an operation communicates to its
  caller.
-/

namespace Tracker

/-- Rust `enum TaskStatus`. -/
inductive TaskStatus where
  | Pending
  | Completed
  | Deleted
deriving DecidableEq

/-- Rust `struct Task`. -/
structure Task where
  id : Nat
  title : List Char
  description : List Char
  status : TaskStatus
deriving DecidableEq

/-- Rust `Task::new`: a fresh task starts `Pending`. -/
def Task.new (id : Nat) (title description : List Char) : Task :=
  ⟨id, title, description, TaskStatus.Pending⟩

/-- Rust `Task::mark_completed`. -/
def Task.mark_completed (t : Task) : Task :=
  { t with status := TaskStatus.Completed }

/-- Rust `Task::mark_deleted`. -/
def Task.mark_deleted (t : Task) : Task :=
  { t with status := TaskStatus.Deleted }

/-- The status token written by `save_to_file` (and matched by load). -/
def statusStr : TaskStatus → List Char
  | TaskStatus.Pending => 'P' :: 'e' :: 'n' :: 'd' :: 'i' :: 'n' :: 'g' :: []
  | TaskStatus.Completed =>
      'C' :: 'o' :: 'm' :: 'p' :: 'l' :: 'e' :: 't' :: 'e' :: 'd' :: []
  | TaskStatus.Deleted => 'D' :: 'e' :: 'l' :: 'e' :: 't' :: 'e' :: 'd' :: []

/-- The character for a single decimal digit `d < 10`. -/
def digitChar (d : Nat) : Char := Char.ofNat (48 + d)

/-- Decimal digits of `n` (most significant first), fuel-structured so that it
kernel-reduces; empty for `n = 0`.  `fuel ≥ n` suffices. -/
def reprNatAux : Nat → Nat → List Char
  | 0, _ => []
  | fuel + 1, n =>
      if n = 0 then [] else reprNatAux fuel (n / 10) ++ [digitChar (n % 10)]

/-- Rust's `Display` for unsigned integers: plain decimal, `"0"` for zero. -/
def reprNat (n : Nat) : List Char :=
  if n = 0 then ['0'] else reprNatAux (n + 1) n

/-- Accumulating decimal parse of a digit string; `none` on any non-digit. -/
def parseDigits : List Char → Nat → Option Nat
  | [], acc => some acc
  | c :: cs, acc =>
      if c.isDigit then parseDigits cs (acc * 10 + (c.toNat - 48)) else none

/-- The optional leading `'+'` sign accepted by Rust's unsigned parse. -/
def stripPlus : List Char → List Char
  | [] => []
  | c :: rest => if c = '+' then rest else c :: rest

/-- Rust `str::parse::<u32>`: an optional leading `'+'`, then one or more
decimal digits, and the value must fit in 32 bits. -/
def parseU32 (s : List Char) : Option Nat :=
  let body := stripPlus s
  if body.isEmpty then none
  else
    match parseDigits body 0 with
    | some v => if v < 2 ^ 32 then some v else none
    | none => none

/-- Modelled from the spec: the spec's load rule says a line's first field
must "parse as a non-negative integer", with no bound; this is that
unbounded parse, kept separate from the source's `parseU32`. -/
def specParseNat (s : List Char) : Option Nat :=
  let body := stripPlus s
  if body.isEmpty then none else parseDigits body 0

/-- Split a character list at every occurrence of `sep`, keeping empty
pieces (the semantics of Rust `str::split(sep)`). -/
def splitOnChar (sep : Char) : List Char → List (List Char)
  | [] => [[]]
  | c :: cs =>
      if c = sep then [] :: splitOnChar sep cs
      else
        match splitOnChar sep cs with
        | [] => [[c]]
        | p :: ps => (c :: p) :: ps

/-- Rust `str::split('|')` on a list of characters. -/
def splitPipe : List Char → List (List Char) := splitOnChar '|'

/-- Split on `'\n'` (every occurrence, keeping empty pieces). -/
def splitNL : List Char → List (List Char) := splitOnChar '\n'

/-- Drop a single trailing `'\r'`, as Rust `str::lines` does per line. -/
def stripCR (l : List Char) : List Char :=
  if l.getLast? = some '\r' then l.dropLast else l

/-- Rust `str::lines`: split on `'\n'`, drop the final empty piece produced
by a trailing newline (so `""` has no lines), strip one trailing `'\r'`
from each line. -/
def rustLines (cs : List Char) : List (List Char) :=
  (if (splitNL cs).getLast? = some [] then (splitNL cs).dropLast
   else splitNL cs).map stripCR

/-- One line of `save_to_file`:
`format!("{}|{}|{}|{}\n", id, title, description, status)`. -/
def serializeTask (t : Task) : List Char :=
  reprNat t.id ++ ('|' :: (t.title ++ ('|' :: (t.description ++
    ('|' :: statusStr t.status)))))

/-- The full file written by `save_to_file` for tasks iterated in the given
order: each task's line followed by `'\n'`. -/
def serializeTasks (ts : List Task) : List Char :=
  (ts.map (fun t => serializeTask t ++ ['\n'])).flatten

/-- `HashMap::get` on the id-keyed task list. -/
def findTask (ts : List Task) (k : Nat) : Option Task :=
  ts.find? (fun t => t.id == k)

/-- `HashMap::insert`: replace the entry with the same key in place, or
append a fresh entry. -/
def insertTask (ts : List Task) (t : Task) : List Task :=
  if ts.any (fun u => u.id == t.id) then
    ts.map (fun u => if u.id == t.id then t else u)
  else ts ++ [t]

/-- `HashMap::get_mut` followed by mutating the found task. -/
def updateTask (ts : List Task) (k : Nat) (f : Task → Task) : List Task :=
  ts.map (fun u => if u.id == k then f u else u)

/-- `HashMap::remove`. -/
def removeTask (ts : List Task) (k : Nat) : List Task :=
  ts.filter (fun u => !(u.id == k))

/-- The status match in `load_from_file` (`_ => continue`). -/
def parseStatus (s : List Char) : Option TaskStatus :=
  if s = statusStr TaskStatus.Pending then some TaskStatus.Pending
  else if s = statusStr TaskStatus.Completed then some TaskStatus.Completed
  else if s = statusStr TaskStatus.Deleted then some TaskStatus.Deleted
  else none

/-- The body of the per-line loop in `load_from_file`: split on `'|'`,
require exactly four parts, parse the id as `u32`, match the status token;
any failure skips the line. -/
def parseLine (line : List Char) : Option Task :=
  match splitPipe line with
  | [f0, f1, f2, f3] =>
      match parseU32 f0 with
      | some id =>
          match parseStatus f3 with
          | some st => some ⟨id, f1, f2, st⟩
          | none => none
      | none => none
  | _ => none

/-- One accepted-or-skipped step of the load loop: on success insert the task
and set `next_id = max(next_id, id + 1)` (with `u32` wrap on `id + 1`). -/
def loadFold (acc : List Task × Nat) (line : List Char) : List Task × Nat :=
  match parseLine line with
  | some t => (insertTask acc.1 t, max acc.2 ((t.id + 1) % 2 ^ 32))
  | none => acc

/-- Rust `TaskManager::load_from_file`, as a function from the backing file's
contents to the `(tasks, next_id)` pair it produces starting from the empty
map and `next_id = 1`; a missing file leaves the store empty. -/
def load_from_file (file : Option (List Char)) : List Task × Nat :=
  match file with
  | none => ([], 1)
  | some cs => (rustLines cs).foldl loadFold ([], 1)

/-- Rust `struct TaskManager`; `file` holds the backing file's contents in
place of the filename (`none` = the file does not exist). -/
structure TaskManager where
  tasks : List Task
  next_id : Nat
  file : Option (List Char)
deriving DecidableEq

/-- Rust `TaskManager::new`: start empty with `next_id = 1`, then load from
the backing file, exactly once. -/
def TaskManager.new (file : Option (List Char)) : TaskManager :=
  ⟨(load_from_file file).1, (load_from_file file).2, file⟩

/-- The tasks accepted from a file, in line order (the sequence of successful
`parseLine` results over `rustLines`). -/
def acceptedTasks (cs : List Char) : List Task :=
  (rustLines cs).filterMap parseLine

/-- The message printed by the not-found branch of
`mark_completed` / `mark_deleted` / `delete_task` (with `println!`'s
trailing newline). -/
def notFoundMsg (k : Nat) : List Char :=
  ('T' :: 'a' :: 's' :: 'k' :: ' ' :: 'w' :: 'i' :: 't' :: 'h' :: ' ' ::
    'I' :: 'D' :: ' ' :: []) ++ reprNat k ++
  (' ' :: 'n' :: 'o' :: 't' :: ' ' :: 'f' :: 'o' :: 'u' :: 'n' :: 'd' ::
    '.' :: '\n' :: [])

/-- Rust `TaskManager::add_task`: insert a fresh `Pending` task at
`next_id`, increment `next_id` (`u32` wrap), save.  The method returns `()`
and prints nothing, hence the empty output. -/
def TaskManager.add_task (m : TaskManager) (title description : List Char) :
    TaskManager × List Char :=
  let ts := insertTask m.tasks (Task.new m.next_id title description)
  (⟨ts, (m.next_id + 1) % 2 ^ 32, some (serializeTasks ts)⟩, [])

/-- One line of `list_tasks`' output. -/
def listLine (t : Task) : List Char :=
  ('I' :: 'D' :: ':' :: ' ' :: []) ++ reprNat t.id ++
  (',' :: ' ' :: 'T' :: 'i' :: 't' :: 'l' :: 'e' :: ':' :: ' ' :: []) ++
  t.title ++
  (',' :: ' ' :: 'S' :: 't' :: 'a' :: 't' :: 'u' :: 's' :: ':' :: ' ' :: []) ++
  statusStr t.status ++ ['\n']

/-- Rust `TaskManager::list_tasks`: print one line per task in the mapping;
`&self`, so the state (and the backing file) is returned unchanged. -/
def TaskManager.list_tasks (m : TaskManager) : TaskManager × List Char :=
  (m, (m.tasks.map listLine).flatten)

/-- Rust `TaskManager::mark_completed`: if the id is present, set its status
to `Completed` and save; otherwise print the not-found message. -/
def TaskManager.mark_completed (m : TaskManager) (k : Nat) :
    TaskManager × List Char :=
  match findTask m.tasks k with
  | some _ =>
      let ts := updateTask m.tasks k Task.mark_completed
      (⟨ts, m.next_id, some (serializeTasks ts)⟩, [])
  | none => (m, notFoundMsg k)

/-- Rust `TaskManager::mark_deleted`: the analogous soft delete. -/
def TaskManager.mark_deleted (m : TaskManager) (k : Nat) :
    TaskManager × List Char :=
  match findTask m.tasks k with
  | some _ =>
      let ts := updateTask m.tasks k Task.mark_deleted
      (⟨ts, m.next_id, some (serializeTasks ts)⟩, [])
  | none => (m, notFoundMsg k)

/-- Rust `TaskManager::delete_task` (hard delete): if the id is present,
remove it and save; otherwise print the not-found message. -/
def TaskManager.delete_task (m : TaskManager) (k : Nat) :
    TaskManager × List Char :=
  if (findTask m.tasks k).isSome then
    let ts := removeTask m.tasks k
    (⟨ts, m.next_id, some (serializeTasks ts)⟩, [])
  else (m, notFoundMsg k)

/-- The store operations a user can drive from the menu loop. -/
inductive Op where
  | create (title description : List Char)
  | complete (id : Nat)
  | softDelete (id : Nat)
  | hardDelete (id : Nat)
deriving DecidableEq

/-- Dispatch one operation. -/
def step (m : TaskManager) (op : Op) : TaskManager × List Char :=
  match op with
  | Op.create t d => m.add_task t d
  | Op.complete k => m.mark_completed k
  | Op.softDelete k => m.mark_deleted k
  | Op.hardDelete k => m.delete_task k

/-- Run a sequence of operations, also collecting every id assigned by a
`create` (the ghost trace "ids ever assigned"). -/
def runA (m : TaskManager) : List Op → TaskManager × List Nat
  | [] => (m, [])
  | op :: ops =>
      let assigned : List Nat := match op with
        | Op.create _ _ => [m.next_id]
        | _ => []
      let r := runA (step m op).1 ops
      (r.1, assigned ++ r.2)

/-- Run a sequence of operations from a fresh store (no backing file). -/
def run (ops : List Op) : TaskManager :=
  (runA (TaskManager.new none) ops).1

/-- How many `create` operations a sequence contains. -/
def countCreates : List Op → Nat
  | [] => 0
  | Op.create _ _ :: ops => countCreates ops + 1
  | _ :: ops => countCreates ops

/-- A string free of the two characters the flat-file format cannot escape. -/
def cleanStr (s : List Char) : Bool :=
  !s.contains '|' && !s.contains '\n'

/-- A `create` operation with clean title and description (other operations
carry no text). -/
def cleanOp : Op → Bool
  | Op.create t d => cleanStr t && cleanStr d
  | _ => true

/-- All `create` operations in the sequence carry clean titles/descriptions. -/
def cleanOps (ops : List Op) : Bool :=
  ops.all cleanOp

/-- Every task in the list has a clean title and description. -/
def cleanTasks (ts : List Task) : Bool :=
  ts.all fun t => cleanStr t.title && cleanStr t.description

/-- The task ids form a set (the `HashMap` key-uniqueness invariant). -/
def uniqueKeys (ts : List Task) : Prop :=
  (ts.map Task.id).Nodup

instance (ts : List Task) : Decidable (uniqueKeys ts) := by
  unfold uniqueKeys; infer_instance

/-- Every id in the list is strictly below `u32::MAX`, so `id + 1` cannot
overflow. -/
def idsBelowMax (ts : List Task) : Bool :=
  ts.all fun t => decide (t.id < 2 ^ 32 - 1)

/-- A task whose text fields contain neither the field separator nor a line
break (the spec's stated policy assumption). -/
def CleanTask (t : Task) : Prop :=
  '|' ∉ t.title ∧ '\n' ∉ t.title ∧ '|' ∉ t.description ∧ '\n' ∉ t.description

/-- The well-formedness invariant every reachable store satisfies when driven
with clean inputs: unique keys, all ids and `next_id` in `u32` range, and
text fields that cannot corrupt the flat-file format. -/
def StoreOk (m : TaskManager) : Prop :=
  uniqueKeys m.tasks ∧ (∀ t ∈ m.tasks, t.id < 2 ^ 32 ∧ CleanTask t) ∧
    m.next_id < 2 ^ 32

/-- The largest id in the mapping (`0` when empty). -/
def maxTaskId (ts : List Task) : Nat :=
  ts.foldl (fun a t => max a t.id) 0

/-- The largest of a list of assigned ids (`0` when none). -/
def maxIds (l : List Nat) : Nat :=
  l.foldr max 0

/-! ### Decimal printing and parsing -/

theorem ne_of_isDigit {c x : Char} (h : c.isDigit = true) (hx : x.isDigit = false) :
    c ≠ x := fun e => by rw [e, hx] at h; cases h

theorem digitChar_isDigit {d : Nat} (h : d < 10) : (digitChar d).isDigit = true := by
  interval_cases d <;> decide

theorem digitChar_toNat {d : Nat} (h : d < 10) : (digitChar d).toNat - 48 = d := by
  interval_cases d <;> decide

theorem reprNatAux_digits :
    ∀ fuel n c, c ∈ reprNatAux fuel n → c.isDigit = true := by
  intro fuel
  induction fuel with
  | zero => intro n c h; simp [reprNatAux] at h
  | succ fuel ih =>
      intro n c h
      by_cases h0 : n = 0
      · simp [reprNatAux, h0] at h
      · simp only [reprNatAux, if_neg h0, List.mem_append, List.mem_singleton] at h
        rcases h with h | h
        · exact ih _ _ h
        · exact h ▸ digitChar_isDigit (Nat.mod_lt n (by norm_num))

theorem reprNat_digits {n : Nat} {c : Char} (h : c ∈ reprNat n) : c.isDigit = true := by
  by_cases h0 : n = 0
  · subst h0; simp [reprNat] at h; subst h; decide
  · rw [reprNat, if_neg h0] at h; exact reprNatAux_digits _ _ _ h

theorem reprNatAux_ne_nil {fuel n : Nat} (h0 : n ≠ 0) (hf : n ≤ fuel) :
    reprNatAux fuel n ≠ [] := by
  cases fuel with
  | zero => omega
  | succ fuel => simp [reprNatAux, h0]

theorem parseDigits_reprNatAux :
    ∀ fuel n, n ≤ fuel → ∀ acc rest,
      parseDigits (reprNatAux fuel n ++ rest) acc =
        parseDigits rest (acc * 10 ^ (reprNatAux fuel n).length + n) := by
  intro fuel
  induction fuel with
  | zero =>
      intro n hn acc rest
      have h0 : n = 0 := by omega
      subst h0
      simp [reprNatAux]
  | succ fuel ih =>
      intro n hn acc rest
      by_cases h0 : n = 0
      · subst h0; simp [reprNatAux]
      · have hstep : reprNatAux (fuel + 1) n =
            reprNatAux fuel (n / 10) ++ [digitChar (n % 10)] := by
          simp [reprNatAux, h0]
        have hdiv : n / 10 ≤ fuel := by
          have : n / 10 < n := Nat.div_lt_self (Nat.pos_of_ne_zero h0) (by norm_num)
          omega
        rw [hstep, List.append_assoc, ih (n / 10) hdiv, List.singleton_append]
        have hm : n % 10 < 10 := Nat.mod_lt n (by norm_num)
        simp only [parseDigits, digitChar_isDigit hm, if_pos, digitChar_toNat hm]
        congr 1
        rw [List.length_append, List.length_singleton, pow_succ, ← Nat.mul_assoc]
        have hdm : 10 * (n / 10) + n % 10 = n := Nat.div_add_mod n 10
        generalize acc * 10 ^ (reprNatAux fuel (n / 10)).length = A
        omega

theorem parseU32_reprNat {n : Nat} (h : n < 2 ^ 32) : parseU32 (reprNat n) = some n := by
  by_cases h0 : n = 0
  · subst h0; decide
  · have hne := reprNatAux_ne_nil h0 (Nat.le_succ n)
    obtain ⟨c, cs, hcs⟩ : ∃ c cs, reprNatAux (n + 1) n = c :: cs := by
      cases hx : reprNatAux (n + 1) n with
      | nil => exact absurd hx hne
      | cons c cs => exact ⟨c, cs, rfl⟩
    have hc : c.isDigit = true :=
      reprNatAux_digits _ _ _ (hcs ▸ List.mem_cons_self c cs)
    have hparse := parseDigits_reprNatAux (n + 1) n (Nat.le_succ n) 0 []
    rw [List.append_nil, Nat.zero_mul, Nat.zero_add] at hparse
    rw [hcs] at hparse
    simp only [reprNat, if_neg h0, hcs]
    have hplus : c ≠ '+' := ne_of_isDigit hc (by decide)
    have hparse' : parseDigits (c :: cs) 0 = some n := hparse
    simp [parseU32, stripPlus, if_neg hplus, hparse', h]
    exact h

theorem parseStatus_statusStr (st : TaskStatus) : parseStatus (statusStr st) = some st := by
  cases st <;> decide

/-! ### Splitting -/

theorem splitOnChar_ne_nil (sep : Char) : ∀ cs, splitOnChar sep cs ≠ [] := by
  intro cs
  induction cs with
  | nil => simp [splitOnChar]
  | cons c cs ih =>
      by_cases hc : c = sep
      · simp [splitOnChar, hc]
      · simp only [splitOnChar, if_neg hc]
        cases hx : splitOnChar sep cs with
        | nil => simp
        | cons p ps => simp

theorem splitOnChar_not_mem {sep : Char} :
    ∀ {xs : List Char}, sep ∉ xs → splitOnChar sep xs = [xs] := by
  intro xs
  induction xs with
  | nil => intro _; rfl
  | cons c cs ih =>
      intro h
      have hc : c ≠ sep := fun e => h (e ▸ List.mem_cons_self c cs)
      have hcs : sep ∉ cs := fun m => h (List.mem_cons_of_mem c m)
      simp only [splitOnChar, if_neg hc, ih hcs]

theorem splitOnChar_append {sep : Char} :
    ∀ {xs : List Char} (rest : List Char), sep ∉ xs →
      splitOnChar sep (xs ++ sep :: rest) = xs :: splitOnChar sep rest := by
  intro xs
  induction xs with
  | nil => intro rest _; simp [splitOnChar]
  | cons c cs ih =>
      intro rest h
      have hc : c ≠ sep := fun e => h (e ▸ List.mem_cons_self c cs)
      have hcs : sep ∉ cs := fun m => h (List.mem_cons_of_mem c m)
      simp only [List.cons_append, splitOnChar, if_neg hc]
      rw [show cs.append (sep :: rest) = cs ++ sep :: rest from rfl, ih rest hcs]

/-- `rustLines` peels one newline-terminated, newline-free line at a time. -/
theorem rustLines_cons {l : List Char} (rest : List Char) (h : '\n' ∉ l) :
    rustLines (l ++ '\n' :: rest) = stripCR l :: rustLines rest := by
  have hsplit : splitNL (l ++ '\n' :: rest) = l :: splitNL rest :=
    splitOnChar_append rest h
  cases hx : splitNL rest with
  | nil => exact absurd hx (splitOnChar_ne_nil '\n' rest)
  | cons p ps =>
      rw [hx] at hsplit
      simp only [rustLines, hsplit, hx, List.getLast?_cons_cons]
      by_cases hlast : (p :: ps).getLast? = some []
      · rw [if_pos hlast, if_pos hlast, List.dropLast_cons₂, List.map_cons]
      · rw [if_neg hlast, if_neg hlast, List.map_cons]

/-- The last line of a nonempty file without a trailing newline. -/
theorem rustLines_single {l : List Char} (h : '\n' ∉ l) (hne : l ≠ []) :
    rustLines l = [stripCR l] := by
  have hsplit : splitNL l = [l] := splitOnChar_not_mem h
  have hl : ([l] : List (List Char)).getLast? = some l := rfl
  simp only [rustLines, hsplit, hl, Option.some_inj]
  rw [if_neg (by simpa using hne)]
  rfl

theorem rustLines_nil : rustLines [] = [] := rfl

/-! ### Serialization round-trip -/

theorem cleanStr_iff {s : List Char} : cleanStr s = true ↔ ('|' ∉ s ∧ '\n' ∉ s) := by
  simp [cleanStr]

theorem cleanTasks_iff {ts : List Task} :
    cleanTasks ts = true ↔ ∀ t ∈ ts, CleanTask t := by
  simp only [cleanTasks, List.all_eq_true, Bool.and_eq_true, cleanStr_iff, CleanTask]
  constructor
  · intro h t ht
    obtain ⟨⟨h1, h2⟩, h3, h4⟩ := h t ht
    exact ⟨h1, h2, h3, h4⟩
  · intro h t ht
    obtain ⟨h1, h2, h3, h4⟩ := h t ht
    exact ⟨⟨h1, h2⟩, h3, h4⟩

theorem statusStr_no_pipe (st : TaskStatus) : '|' ∉ statusStr st := by
  cases st <;> decide

theorem statusStr_no_nl (st : TaskStatus) : '\n' ∉ statusStr st := by
  cases st <;> decide

theorem statusStr_getLast (st : TaskStatus) :
    (statusStr st).getLast? ≠ some '\r' := by
  cases st <;> decide

theorem reprNat_no_pipe (n : Nat) : '|' ∉ reprNat n := fun h =>
  absurd rfl (ne_of_isDigit (reprNat_digits h) (by decide))

theorem reprNat_no_nl (n : Nat) : '\n' ∉ reprNat n := fun h =>
  absurd rfl (ne_of_isDigit (reprNat_digits h) (by decide))

theorem serializeTask_no_nl {t : Task} (h : CleanTask t) :
    '\n' ∉ serializeTask t := by
  obtain ⟨-, h2, -, h4⟩ := h
  intro hmem
  simp only [serializeTask, List.mem_append, List.mem_cons] at hmem
  rcases hmem with h' | h' | h' | h' | h' | h' | h'
  · exact reprNat_no_nl t.id h'
  · exact absurd h' (by decide)
  · exact h2 h'
  · exact absurd h' (by decide)
  · exact h4 h'
  · exact absurd h' (by decide)
  · exact statusStr_no_nl t.status h'

theorem stripCR_serializeTask (t : Task) :
    stripCR (serializeTask t) = serializeTask t := by
  have hassoc : serializeTask t =
      (reprNat t.id ++ '|' :: t.title ++ '|' :: t.description ++ ['|']) ++
        statusStr t.status := by
    simp [serializeTask]
  have hlast : (serializeTask t).getLast? = (statusStr t.status).getLast? := by
    rw [hassoc, List.getLast?_append]
    cases hst : (statusStr t.status).getLast? with
    | none => exact absurd hst (by cases t.status <;> decide)
    | some c => rfl
  rw [stripCR, if_neg]
  rw [hlast]
  exact statusStr_getLast t.status

/-- Splitting a serialized task line on `'|'` recovers the four fields. -/
theorem splitPipe_serializeTask {t : Task} (h : CleanTask t) :
    splitPipe (serializeTask t) =
      [reprNat t.id, t.title, t.description, statusStr t.status] := by
  obtain ⟨h1, -, h3, -⟩ := h
  show splitOnChar '|' _ = _
  rw [serializeTask, splitOnChar_append _ (reprNat_no_pipe t.id),
    splitOnChar_append _ h1, splitOnChar_append _ h3,
    splitOnChar_not_mem (statusStr_no_pipe t.status)]

/-- Parsing a serialized task line recovers the task. -/
theorem parseLine_serializeTask {t : Task} (hid : t.id < 2 ^ 32)
    (h : CleanTask t) : parseLine (serializeTask t) = some t := by
  rw [parseLine, splitPipe_serializeTask h]
  simp only [parseU32_reprNat hid, parseStatus_statusStr]

/-- The lines read back from a saved task list are exactly the serialized
lines, in order. -/
theorem rustLines_serializeTasks :
    ∀ {ts : List Task}, (∀ t ∈ ts, CleanTask t) →
      rustLines (serializeTasks ts) = ts.map serializeTask := by
  intro ts
  induction ts with
  | nil => intro _; rfl
  | cons t ts ih =>
      intro h
      have ht := h t (List.mem_cons_self t ts)
      have hts := fun u hu => h u (List.mem_cons_of_mem t hu)
      have hflat : serializeTasks (t :: ts) =
          serializeTask t ++ '\n' :: serializeTasks ts := by
        simp [serializeTasks]
      rw [hflat, rustLines_cons _ (serializeTask_no_nl ht),
        stripCR_serializeTask, ih hts, List.map_cons]

/-- Loading a saved task list accepts every line, in order. -/
theorem acceptedTasks_serializeTasks {ts : List Task}
    (hid : ∀ t ∈ ts, t.id < 2 ^ 32) (h : ∀ t ∈ ts, CleanTask t) :
    acceptedTasks (serializeTasks ts) = ts := by
  rw [acceptedTasks, rustLines_serializeTasks h, List.filterMap_map]
  have : ∀ t ∈ ts, (parseLine ∘ serializeTask) t = some t := fun t ht =>
    parseLine_serializeTask (hid t ht) (h t ht)
  calc ts.filterMap (parseLine ∘ serializeTask)
      = ts.filterMap some := List.filterMap_congr this
    _ = ts := List.filterMap_some ts

/-! ### The id-keyed association list (the `HashMap` model) -/

theorem find?_map_replace_ne {t : Task} {k : Nat} (hne : t.id ≠ k) :
    ∀ ts : List Task,
      (ts.map (fun u => if u.id == t.id then t else u)).find?
          (fun u => u.id == k) =
        ts.find? (fun u => u.id == k) := by
  intro ts
  induction ts with
  | nil => rfl
  | cons u us ih =>
      rw [List.map_cons]
      by_cases hu : u.id = t.id
      · rw [if_pos (by simpa using hu)]
        rw [List.find?_cons_of_neg _ (by simpa using hne),
          List.find?_cons_of_neg _ (by simp [hu, hne]), ih]
      · rw [if_neg (by simpa using hu)]
        by_cases hk : u.id = k
        · rw [List.find?_cons_of_pos _ (by simpa using hk),
            List.find?_cons_of_pos _ (by simpa using hk)]
        · rw [List.find?_cons_of_neg _ (by simpa using hk),
            List.find?_cons_of_neg _ (by simpa using hk), ih]

theorem find?_map_replace_eq {t : Task} {k : Nat} (heq : t.id = k) :
    ∀ ts : List Task, ts.any (fun u => u.id == t.id) = true →
      (ts.map (fun u => if u.id == t.id then t else u)).find?
          (fun u => u.id == k) = some t := by
  intro ts
  induction ts with
  | nil => intro h; cases h
  | cons u us ih =>
      intro h
      rw [List.map_cons]
      by_cases hu : u.id = t.id
      · rw [if_pos (by simpa using hu),
          List.find?_cons_of_pos _ (by simpa using heq)]
      · rw [if_neg (by simpa using hu),
          List.find?_cons_of_neg _ (by simp; omega)]
        apply ih
        simpa [List.any_cons, hu] using h

/-- `HashMap::insert` then `get`: the inserted key finds the new task,
every other key is unaffected. -/
theorem findTask_insertTask (ts : List Task) (t : Task) (k : Nat) :
    findTask (insertTask ts t) k =
      if t.id = k then some t else findTask ts k := by
  rw [insertTask]
  by_cases hin : ts.any (fun u => u.id == t.id) = true
  · rw [if_pos hin]
    by_cases ht : t.id = k
    · rw [if_pos ht, findTask, find?_map_replace_eq ht ts hin]
    · rw [if_neg ht, findTask, find?_map_replace_ne ht ts]; rfl
  · rw [if_neg hin, findTask, List.find?_append]
    have hall : ∀ u ∈ ts, u.id ≠ t.id := by
      intro u hu he
      exact hin (List.any_eq_true.mpr ⟨u, hu, by simpa using he⟩)
    by_cases ht : t.id = k
    · rw [if_pos ht]
      have h1 : ts.find? (fun u => u.id == k) = none :=
        List.find?_eq_none.mpr fun u hu => by
          simpa using fun e => hall u hu (e.trans ht.symm)
      rw [h1, List.find?_cons_of_pos _ (by simpa using ht)]
      rfl
    · rw [if_neg ht,
        show List.find? (fun u => u.id == k) [t] = none from by simpa using ht]
      rw [Option.or_none]
      rfl

/-- Looking up in a `foldl insertTask`: the last inserted task with the key
wins, else fall back to the accumulator. -/
theorem findTask_foldl_insertTask :
    ∀ (l acc : List Task) (k : Nat),
      findTask (l.foldl insertTask acc) k =
        (l.reverse.find? (fun t => t.id == k)).or (findTask acc k) := by
  intro l
  induction l with
  | nil => intro acc k; simp
  | cons x l ih =>
      intro acc k
      rw [List.foldl_cons, ih, findTask_insertTask, List.reverse_cons,
        List.find?_append]
      cases hx : List.find? (fun t => t.id == k) l.reverse with
      | some _ => rfl
      | none =>
          by_cases hxk : x.id = k
          · simp [hxk]
          · simp [hxk]

/-- Building a map from scratch: lookup is the last accepted occurrence. -/
theorem findTask_foldl_insertTask_nil (l : List Task) (k : Nat) :
    findTask (l.foldl insertTask []) k = findTask l.reverse k := by
  rw [findTask_foldl_insertTask, show findTask [] k = none from rfl,
    Option.or_none]
  rfl

theorem findTask_eq_none_iff {ts : List Task} {k : Nat} :
    findTask ts k = none ↔ ∀ t ∈ ts, t.id ≠ k := by
  rw [findTask, List.find?_eq_none]
  simp

theorem findTask_of_mem_unique :
    ∀ {ts : List Task} {t : Task} {k : Nat}, uniqueKeys ts → t ∈ ts →
      t.id = k → findTask ts k = some t := by
  intro ts
  induction ts with
  | nil => intro t k _ hm; cases hm
  | cons u us ih =>
      intro t k h hm hk
      have hn : (∀ x ∈ us, ¬x.id = u.id) ∧ (List.map Task.id us).Nodup := by
        simpa [uniqueKeys] using h
      rcases List.mem_cons.mp hm with rfl | hm'
      · rw [findTask, List.find?_cons_of_pos _ (by simpa using hk)]
      · have hu : u.id ≠ k := by
          intro e
          exact hn.1 t hm' (hk.trans e.symm)
        rw [findTask, List.find?_cons_of_neg _ (by simpa using hu)]
        exact ih hn.2 hm' hk

theorem findTask_eq_some_iff {ts : List Task} (h : uniqueKeys ts) {k : Nat}
    {t : Task} : findTask ts k = some t ↔ t ∈ ts ∧ t.id = k := by
  constructor
  · intro hf
    refine ⟨List.mem_of_find?_eq_some hf, ?_⟩
    have := List.find?_some hf
    simpa using this
  · rintro ⟨hm, hk⟩
    exact findTask_of_mem_unique h hm hk

theorem uniqueKeys_perm {ts ts' : List Task} (h : uniqueKeys ts)
    (p : ts.Perm ts') : uniqueKeys ts' :=
  ((p.map Task.id).nodup_iff).mp h

/-- With unique keys, lookup is invariant under permutation (the formal
counterpart of the `HashMap`'s unspecified iteration order). -/
theorem findTask_perm {ts ts' : List Task} (h : uniqueKeys ts)
    (p : ts.Perm ts') (k : Nat) : findTask ts k = findTask ts' k := by
  have h' : uniqueKeys ts' := uniqueKeys_perm h p
  cases hf : findTask ts k with
  | some t =>
      obtain ⟨hm, hk⟩ := (findTask_eq_some_iff h).mp hf
      exact ((findTask_eq_some_iff h').mpr ⟨p.subset hm, hk⟩).symm
  | none =>
      have hall := findTask_eq_none_iff.mp hf
      exact (findTask_eq_none_iff.mpr fun t ht => hall t (p.symm.subset ht)).symm

theorem uniqueKeys_insertTask {ts : List Task} {t : Task}
    (h : uniqueKeys ts) : uniqueKeys (insertTask ts t) := by
  rw [insertTask]
  by_cases hin : ts.any (fun u => u.id == t.id) = true
  · rw [if_pos hin]
    have hmap : (ts.map (fun u => if u.id == t.id then t else u)).map Task.id =
        ts.map Task.id := by
      rw [List.map_map]
      apply List.map_congr_left
      intro u _
      by_cases hu : u.id = t.id
      · simp [hu]
      · simp [hu]
    unfold uniqueKeys
    rw [hmap]
    exact h
  · rw [if_neg hin]
    unfold uniqueKeys
    rw [List.map_append]
    refine List.Nodup.append h (List.nodup_singleton _) ?_
    intro a ha hb
    simp only [List.map_cons, List.map_nil, List.mem_singleton] at hb
    subst hb
    obtain ⟨u, hu, he⟩ := List.mem_map.mp ha
    exact hin (List.any_eq_true.mpr ⟨u, hu, by simpa using he⟩)

theorem uniqueKeys_updateTask {ts : List Task} {k : Nat} {f : Task → Task}
    (hf : ∀ u, (f u).id = u.id) (h : uniqueKeys ts) :
    uniqueKeys (updateTask ts k f) := by
  have hmap : (updateTask ts k f).map Task.id = ts.map Task.id := by
    rw [updateTask, List.map_map]
    apply List.map_congr_left
    intro u _
    by_cases hu : u.id = k
    · simp [hu, hf]
    · simp [hu]
  unfold uniqueKeys
  rw [hmap]
  exact h

theorem uniqueKeys_removeTask {ts : List Task} {k : Nat}
    (h : uniqueKeys ts) : uniqueKeys (removeTask ts k) :=
  ((List.filter_sublist ts).map Task.id).nodup h

theorem uniqueKeys_foldl_insertTask :
    ∀ (l acc : List Task), uniqueKeys acc →
      uniqueKeys (l.foldl insertTask acc) := by
  intro l
  induction l with
  | nil => intro acc h; exact h
  | cons x l ih => intro acc h; exact ih _ (uniqueKeys_insertTask h)

theorem mem_insertTask {ts : List Task} {t u : Task}
    (h : u ∈ insertTask ts t) : u ∈ ts ∨ u = t := by
  rw [insertTask] at h
  by_cases hin : ts.any (fun v => v.id == t.id) = true
  · rw [if_pos hin] at h
    obtain ⟨v, hv, he⟩ := List.mem_map.mp h
    by_cases hv' : v.id = t.id
    · right; rw [← he, if_pos (by simpa using hv')]
    · left; rw [← he, if_neg (by simpa using hv')]; exact hv
  · rw [if_neg hin] at h
    rcases List.mem_append.mp h with h' | h'
    · exact Or.inl h'
    · exact Or.inr (List.mem_singleton.mp h')

theorem mem_updateTask {ts : List Task} {k : Nat} {f : Task → Task} {u : Task}
    (h : u ∈ updateTask ts k f) : ∃ v ∈ ts, u = f v ∨ u = v := by
  obtain ⟨v, hv, he⟩ := List.mem_map.mp h
  by_cases hv' : v.id = k
  · exact ⟨v, hv, Or.inl (by rw [← he, if_pos (by simpa using hv')])⟩
  · exact ⟨v, hv, Or.inr (by rw [← he, if_neg (by simpa using hv')])⟩

theorem mem_removeTask {ts : List Task} {k : Nat} {u : Task}
    (h : u ∈ removeTask ts k) : u ∈ ts ∧ u.id ≠ k := by
  have := List.mem_filter.mp h
  refine ⟨this.1, ?_⟩
  simpa using this.2

theorem findTask_removeTask (ts : List Task) (k : Nat) :
    findTask (removeTask ts k) k = none :=
  findTask_eq_none_iff.mpr fun _ ht => (mem_removeTask ht).2

/-- `get_mut` + in-place mutation: lookup after `updateTask` at the same key
applies the mutation (for id-preserving mutations). -/
theorem findTask_updateTask (f : Task → Task) (hf : ∀ u, (f u).id = u.id) :
    ∀ (ts : List Task) (k : Nat),
      findTask (updateTask ts k f) k = (findTask ts k).map f := by
  intro ts
  induction ts with
  | nil => intro k; rfl
  | cons u us ih =>
      intro k
      rw [updateTask, List.map_cons]
      by_cases hu : u.id = k
      · rw [if_pos (by simpa using hu), findTask,
          List.find?_cons_of_pos _ (by simpa [hf] using hu), findTask,
          List.find?_cons_of_pos _ (by simpa using hu)]
        rfl
      · rw [if_neg (by simpa using hu), findTask,
          List.find?_cons_of_neg _ (by simpa [hf] using hu), findTask,
          List.find?_cons_of_neg _ (by simpa using hu)]
        exact ih k

/-! ### Loading -/

theorem loadFold_fst :
    ∀ (lines : List (List Char)) (acc : List Task × Nat),
      (lines.foldl loadFold acc).1 =
        (lines.filterMap parseLine).foldl insertTask acc.1 := by
  intro lines
  induction lines with
  | nil => intro acc; rfl
  | cons l ls ih =>
      intro acc
      rw [List.foldl_cons, List.filterMap_cons, ih]
      cases hp : parseLine l with
      | none => rw [loadFold, hp]
      | some t => rw [List.foldl_cons, loadFold, hp]

theorem loadFold_snd :
    ∀ (lines : List (List Char)) (acc : List Task × Nat),
      (lines.foldl loadFold acc).2 =
        (lines.filterMap parseLine).foldl
          (fun a t => max a ((t.id + 1) % 2 ^ 32)) acc.2 := by
  intro lines
  induction lines with
  | nil => intro acc; rfl
  | cons l ls ih =>
      intro acc
      rw [List.foldl_cons, List.filterMap_cons, ih]
      cases hp : parseLine l with
      | none => rw [loadFold, hp]
      | some t => rw [List.foldl_cons, loadFold, hp]

theorem load_tasks (cs : List Char) :
    (load_from_file (some cs)).1 = (acceptedTasks cs).foldl insertTask [] :=
  loadFold_fst (rustLines cs) ([], 1)

theorem load_next_id (cs : List Char) :
    (load_from_file (some cs)).2 =
      (acceptedTasks cs).foldl (fun a t => max a ((t.id + 1) % 2 ^ 32)) 1 :=
  loadFold_snd (rustLines cs) ([], 1)

theorem uniqueKeys_load (file : Option (List Char)) :
    uniqueKeys (load_from_file file).1 := by
  cases file with
  | none => exact List.nodup_nil
  | some cs =>
      rw [load_tasks]
      exact uniqueKeys_foldl_insertTask _ _ List.nodup_nil

theorem foldl_max_le :
    ∀ (l : List Task) (g : Task → Nat) (a : Nat),
      a ≤ l.foldl (fun a t => max a (g t)) a := by
  intro l
  induction l with
  | nil => intro g a; exact Nat.le_refl a
  | cons t ts ih =>
      intro g a
      rw [List.foldl_cons]
      exact Nat.le_trans (Nat.le_max_left a (g t)) (ih g _)

theorem foldl_max_mem_le :
    ∀ (l : List Task) (g : Task → Nat) (a : Nat) (t : Task), t ∈ l →
      g t ≤ l.foldl (fun a t => max a (g t)) a := by
  intro l
  induction l with
  | nil => intro g a t ht; cases ht
  | cons u us ih =>
      intro g a t ht
      rcases List.mem_cons.mp ht with rfl | ht'
      · rw [List.foldl_cons]
        exact Nat.le_trans (Nat.le_max_right a (g t)) (foldl_max_le us g _)
      · rw [List.foldl_cons]
        exact ih g _ t ht'

theorem foldl_max_lt :
    ∀ (l : List Task) (g : Task → Nat) (a b : Nat), a < b →
      (∀ t ∈ l, g t < b) → l.foldl (fun a t => max a (g t)) a < b := by
  intro l
  induction l with
  | nil => intro g a b ha _; exact ha
  | cons u us ih =>
      intro g a b ha hl
      rw [List.foldl_cons]
      exact ih g _ b (Nat.max_lt.mpr ⟨ha, hl u (List.mem_cons_self u us)⟩)
        fun t ht => hl t (List.mem_cons_of_mem u ht)

/-- After a load, `next_id` is a valid `u32`. -/
theorem load_next_id_lt (file : Option (List Char)) :
    (load_from_file file).2 < 2 ^ 32 := by
  cases file with
  | none => norm_num [load_from_file]
  | some cs =>
      rw [load_next_id]
      exact foldl_max_lt _ _ 1 (2 ^ 32) (by norm_num)
        fun t _ => Nat.mod_lt _ (by norm_num)

/-- When no accepted id is `u32::MAX`, loading seeds `next_id` strictly
above every accepted id. -/
theorem load_next_id_gt {cs : List Char}
    (h : ∀ t ∈ acceptedTasks cs, t.id + 1 < 2 ^ 32) :
    ∀ t ∈ acceptedTasks cs, t.id < (load_from_file (some cs)).2 := by
  intro t ht
  rw [load_next_id]
  have hle := foldl_max_mem_le (acceptedTasks cs)
    (fun t => (t.id + 1) % 2 ^ 32) 1 t ht
  simp only at hle
  rw [Nat.mod_eq_of_lt (h t ht)] at hle
  omega

/-- When no accepted id is `u32::MAX`, the `% 2^32` in the seed never fires:
`next_id` is one more than the largest accepted id (or `1`). -/
theorem foldl_max_mod_eq :
    ∀ (l : List Task) (a : Nat), (∀ t ∈ l, t.id + 1 < 2 ^ 32) →
      l.foldl (fun a t => max a ((t.id + 1) % 2 ^ 32)) a =
        l.foldl (fun a t => max a (t.id + 1)) a := by
  intro l
  induction l with
  | nil => intro a _; rfl
  | cons u us ih =>
      intro a h
      rw [List.foldl_cons, List.foldl_cons,
        Nat.mod_eq_of_lt (h u (List.mem_cons_self u us))]
      exact ih _ fun t ht => h t (List.mem_cons_of_mem u ht)

theorem load_next_id_eq {cs : List Char}
    (h : ∀ t ∈ acceptedTasks cs, t.id + 1 < 2 ^ 32) :
    (load_from_file (some cs)).2 =
      (acceptedTasks cs).foldl (fun a t => max a (t.id + 1)) 1 := by
  rw [load_next_id, foldl_max_mod_eq _ _ h]

theorem foldl_max_succ :
    ∀ (l : List Task) (b : Nat),
      l.foldl (fun a t => max a (t.id + 1)) (b + 1) =
        l.foldl (fun a t => max a t.id) b + 1 := by
  intro l
  induction l with
  | nil => intro b; rfl
  | cons u us ih =>
      intro b
      rw [List.foldl_cons, List.foldl_cons,
        show max (b + 1) (u.id + 1) = max b u.id + 1 by omega]
      exact ih _

/-! ### Running operation sequences -/

theorem runA_fst (m : TaskManager) (op : Op) (ops : List Op) :
    (runA m (op :: ops)).1 = (runA (step m op).1 ops).1 := rfl

theorem step_next_id_complete (m : TaskManager) (k : Nat) :
    (TaskManager.mark_completed m k).1.next_id = m.next_id := by
  rw [TaskManager.mark_completed]
  cases findTask m.tasks k <;> rfl

theorem step_next_id_softDelete (m : TaskManager) (k : Nat) :
    (TaskManager.mark_deleted m k).1.next_id = m.next_id := by
  rw [TaskManager.mark_deleted]
  cases findTask m.tasks k <;> rfl

theorem step_next_id_hardDelete (m : TaskManager) (k : Nat) :
    (TaskManager.delete_task m k).1.next_id = m.next_id := by
  rw [TaskManager.delete_task]
  by_cases hf : (findTask m.tasks k).isSome <;> simp [hf]

/-- Any operation keeps the invariant, given clean `create` inputs. -/
theorem step_ok {m : TaskManager} {op : Op} (hm : StoreOk m)
    (hop : cleanOp op = true) : StoreOk (step m op).1 := by
  obtain ⟨hu, hmem, hnid⟩ := hm
  cases op with
  | create t d =>
      have hcl : cleanStr t = true ∧ cleanStr d = true := by
        simpa [cleanOp] using hop
      refine ⟨uniqueKeys_insertTask hu, ?_, Nat.mod_lt _ (by norm_num)⟩
      intro u hu'
      rcases mem_insertTask hu' with h' | h'
      · exact hmem u h'
      · subst h'
        obtain ⟨h1, h2⟩ := hcl
        rw [cleanStr_iff] at h1 h2
        exact ⟨hnid, h1.1, h1.2, h2.1, h2.2⟩
  | complete k =>
      show StoreOk (TaskManager.mark_completed m k).1
      rw [TaskManager.mark_completed]
      cases hf : findTask m.tasks k with
      | none => exact ⟨hu, hmem, hnid⟩
      | some u =>
          refine ⟨uniqueKeys_updateTask (fun _ => rfl) hu, ?_, hnid⟩
          intro v hv
          obtain ⟨w, hw, hvw⟩ := mem_updateTask hv
          rcases hvw with h' | h' <;> rw [h'] <;> exact hmem w hw
  | softDelete k =>
      show StoreOk (TaskManager.mark_deleted m k).1
      rw [TaskManager.mark_deleted]
      cases hf : findTask m.tasks k with
      | none => exact ⟨hu, hmem, hnid⟩
      | some u =>
          refine ⟨uniqueKeys_updateTask (fun _ => rfl) hu, ?_, hnid⟩
          intro v hv
          obtain ⟨w, hw, hvw⟩ := mem_updateTask hv
          rcases hvw with h' | h' <;> rw [h'] <;> exact hmem w hw
  | hardDelete k =>
      show StoreOk (TaskManager.delete_task m k).1
      rw [TaskManager.delete_task]
      by_cases hf : (findTask m.tasks k).isSome
      · rw [if_pos hf]
        exact ⟨uniqueKeys_removeTask hu,
          fun v hv => hmem v (mem_removeTask hv).1, hnid⟩
      · rw [if_neg hf]
        exact ⟨hu, hmem, hnid⟩

theorem runA_ok :
    ∀ (ops : List Op) (m : TaskManager), StoreOk m → cleanOps ops = true →
      StoreOk (runA m ops).1 := by
  intro ops
  induction ops with
  | nil => intro m hm _; exact hm
  | cons op ops ih =>
      intro m hm hcl
      have hsplit : cleanOp op = true ∧ cleanOps ops = true := by
        simpa [cleanOps] using hcl
      rw [runA_fst]
      exact ih _ (step_ok hm hsplit.1) hsplit.2

theorem new_none_ok : StoreOk (TaskManager.new none) :=
  ⟨List.nodup_nil, fun t ht => absurd ht (List.not_mem_nil t),
    by show (1 : Nat) < 2 ^ 32; norm_num⟩

/-- `next_id` for one non-create step. -/
theorem step_next_id {m : TaskManager} {op : Op}
    (h : ∀ t d, op ≠ Op.create t d) : (step m op).1.next_id = m.next_id := by
  cases op with
  | create t d => exact absurd rfl (h t d)
  | complete k => exact step_next_id_complete m k
  | softDelete k => exact step_next_id_softDelete m k
  | hardDelete k => exact step_next_id_hardDelete m k

theorem runA_next_id :
    ∀ (ops : List Op) (m : TaskManager),
      m.next_id + countCreates ops < 2 ^ 32 →
      (runA m ops).1.next_id = m.next_id + countCreates ops := by
  intro ops
  induction ops with
  | nil => intro m _; rfl
  | cons op ops ih =>
      intro m h
      rw [runA_fst]
      cases op with
      | create t d =>
          have hc : countCreates (Op.create t d :: ops) = countCreates ops + 1 :=
            rfl
          rw [hc] at h
          have hstep : (step m (Op.create t d)).1.next_id = m.next_id + 1 :=
            Nat.mod_eq_of_lt (by omega)
          rw [ih _ (by rw [hstep]; omega), hstep, hc]
          omega
      | complete k =>
          have hni : (step m (Op.complete k)).1.next_id = m.next_id :=
            step_next_id_complete m k
          rw [ih _ (by rw [hni]; exact h), hni]
          rfl
      | softDelete k =>
          have hni : (step m (Op.softDelete k)).1.next_id = m.next_id :=
            step_next_id_softDelete m k
          rw [ih _ (by rw [hni]; exact h), hni]
          rfl
      | hardDelete k =>
          have hni : (step m (Op.hardDelete k)).1.next_id = m.next_id :=
            step_next_id_hardDelete m k
          rw [ih _ (by rw [hni]; exact h), hni]
          rfl

theorem runA_assigned :
    ∀ (ops : List Op) (m : TaskManager),
      m.next_id + countCreates ops < 2 ^ 32 →
      (runA m ops).2 = List.range' m.next_id (countCreates ops) := by
  intro ops
  induction ops with
  | nil => intro m _; rfl
  | cons op ops ih =>
      intro m h
      cases op with
      | create t d =>
          have hc : countCreates (Op.create t d :: ops) = countCreates ops + 1 :=
            rfl
          rw [hc] at h
          have hstep : (step m (Op.create t d)).1.next_id = m.next_id + 1 :=
            Nat.mod_eq_of_lt (by omega)
          have htail := ih (step m (Op.create t d)).1 (by rw [hstep]; omega)
          rw [hstep] at htail
          show m.next_id :: (runA (step m (Op.create t d)).1 ops).2 = _
          rw [htail, hc]
          rfl
      | complete k =>
          have hni : (step m (Op.complete k)).1.next_id = m.next_id :=
            step_next_id_complete m k
          have htail := ih (step m (Op.complete k)).1 (by rw [hni]; exact h)
          rw [hni] at htail
          exact htail
      | softDelete k =>
          have hni : (step m (Op.softDelete k)).1.next_id = m.next_id :=
            step_next_id_softDelete m k
          have htail := ih (step m (Op.softDelete k)).1 (by rw [hni]; exact h)
          rw [hni] at htail
          exact htail
      | hardDelete k =>
          have hni : (step m (Op.hardDelete k)).1.next_id = m.next_id :=
            step_next_id_hardDelete m k
          have htail := ih (step m (Op.hardDelete k)).1 (by rw [hni]; exact h)
          rw [hni] at htail
          exact htail

theorem runA_assigned_nil :
    ∀ (ops : List Op) (m : TaskManager), countCreates ops = 0 →
      (runA m ops).2 = [] := by
  intro ops
  induction ops with
  | nil => intro m _; rfl
  | cons op ops ih =>
      intro m h
      cases op with
      | create t d => exact absurd h (by simp [countCreates])
      | complete k => exact ih _ h
      | softDelete k => exact ih _ h
      | hardDelete k => exact ih _ h

/-- With no `u32` overflow available to the run, every id assigned in the
future is at least the current `next_id`. -/
theorem runA_assigned_ge :
    ∀ (ops : List Op) (m : TaskManager),
      m.next_id + countCreates ops ≤ 2 ^ 32 →
      ∀ i ∈ (runA m ops).2, m.next_id ≤ i := by
  intro ops
  induction ops with
  | nil => intro m _ i hi; cases hi
  | cons op ops ih =>
      intro m h i hi
      cases op with
      | create t d =>
          have hc : countCreates (Op.create t d :: ops) = countCreates ops + 1 :=
            rfl
          rw [hc] at h
          have hi' : i ∈ m.next_id :: (runA (step m (Op.create t d)).1 ops).2 :=
            hi
          rcases List.mem_cons.mp hi' with h' | hi''
          · exact Nat.le_of_eq h'.symm
          · by_cases hedge : m.next_id + 1 < 2 ^ 32
            · have hstep : (step m (Op.create t d)).1.next_id = m.next_id + 1 :=
                Nat.mod_eq_of_lt hedge
              have hrec := ih (step m (Op.create t d)).1
                (by rw [hstep]; omega) i hi''
              rw [hstep] at hrec
              omega
            · have hc0 : countCreates ops = 0 := by omega
              rw [runA_assigned_nil ops _ hc0] at hi''
              cases hi''
      | complete k =>
          have hni : (step m (Op.complete k)).1.next_id = m.next_id :=
            step_next_id_complete m k
          have hrec := ih (step m (Op.complete k)).1 (by rw [hni]; exact h) i hi
          rw [hni] at hrec
          exact hrec
      | softDelete k =>
          have hni : (step m (Op.softDelete k)).1.next_id = m.next_id :=
            step_next_id_softDelete m k
          have hrec := ih (step m (Op.softDelete k)).1 (by rw [hni]; exact h) i hi
          rw [hni] at hrec
          exact hrec
      | hardDelete k =>
          have hni : (step m (Op.hardDelete k)).1.next_id = m.next_id :=
            step_next_id_hardDelete m k
          have hrec := ih (step m (Op.hardDelete k)).1 (by rw [hni]; exact h) i hi
          rw [hni] at hrec
          exact hrec

theorem tasks_lt_complete {m : TaskManager} {k : Nat}
    (hlt : ∀ t ∈ m.tasks, t.id < m.next_id) :
    ∀ t ∈ (TaskManager.mark_completed m k).1.tasks,
      t.id < (TaskManager.mark_completed m k).1.next_id := by
  rw [TaskManager.mark_completed]
  cases hf : findTask m.tasks k with
  | none => exact hlt
  | some u =>
      intro v hv
      obtain ⟨w, hw, hvw⟩ := mem_updateTask hv
      rcases hvw with h' | h' <;> rw [h'] <;> exact hlt w hw

theorem tasks_lt_softDelete {m : TaskManager} {k : Nat}
    (hlt : ∀ t ∈ m.tasks, t.id < m.next_id) :
    ∀ t ∈ (TaskManager.mark_deleted m k).1.tasks,
      t.id < (TaskManager.mark_deleted m k).1.next_id := by
  rw [TaskManager.mark_deleted]
  cases hf : findTask m.tasks k with
  | none => exact hlt
  | some u =>
      intro v hv
      obtain ⟨w, hw, hvw⟩ := mem_updateTask hv
      rcases hvw with h' | h' <;> rw [h'] <;> exact hlt w hw

theorem tasks_lt_hardDelete {m : TaskManager} {k : Nat}
    (hlt : ∀ t ∈ m.tasks, t.id < m.next_id) :
    ∀ t ∈ (TaskManager.delete_task m k).1.tasks,
      t.id < (TaskManager.delete_task m k).1.next_id := by
  rw [TaskManager.delete_task]
  by_cases hf : (findTask m.tasks k).isSome
  · rw [if_pos hf]
    exact fun t ht => hlt t (mem_removeTask ht).1
  · rw [if_neg hf]
    exact hlt

/-- With no overflow available, every id in the mapping stays strictly
below `next_id`. -/
theorem runA_tasks_lt :
    ∀ (ops : List Op) (m : TaskManager),
      m.next_id + countCreates ops < 2 ^ 32 →
      (∀ t ∈ m.tasks, t.id < m.next_id) →
      ∀ t ∈ (runA m ops).1.tasks, t.id < (runA m ops).1.next_id := by
  intro ops
  induction ops with
  | nil => intro m _ hlt; exact hlt
  | cons op ops ih =>
      intro m h hlt
      rw [runA_fst]
      cases op with
      | create t d =>
          have hc : countCreates (Op.create t d :: ops) = countCreates ops + 1 :=
            rfl
          rw [hc] at h
          have hstep : (step m (Op.create t d)).1.next_id = m.next_id + 1 :=
            Nat.mod_eq_of_lt (by omega)
          apply ih _ (by rw [hstep]; omega)
          intro u hu
          rw [hstep]
          rcases mem_insertTask hu with h' | h'
          · exact Nat.lt_succ_of_lt (hlt u h')
          · rw [h']
            exact Nat.lt_succ_self _
      | complete k =>
          have hni : (step m (Op.complete k)).1.next_id = m.next_id :=
            step_next_id_complete m k
          exact ih _ (by rw [hni]; exact h) (tasks_lt_complete hlt)
      | softDelete k =>
          have hni : (step m (Op.softDelete k)).1.next_id = m.next_id :=
            step_next_id_softDelete m k
          exact ih _ (by rw [hni]; exact h) (tasks_lt_softDelete hlt)
      | hardDelete k =>
          have hni : (step m (Op.hardDelete k)).1.next_id = m.next_id :=
            step_next_id_hardDelete m k
          exact ih _ (by rw [hni]; exact h) (tasks_lt_hardDelete hlt)

theorem maxIds_range' :
    ∀ (n s : Nat), maxIds (List.range' s n) = if n = 0 then 0 else s + n - 1 := by
  intro n
  induction n with
  | zero => intro s; rfl
  | succ n ih =>
      intro s
      show max s (maxIds (List.range' (s + 1) n)) = _
      rw [ih]
      by_cases h : n = 0
      · simp [h]
      · rw [if_neg h, if_neg (Nat.succ_ne_zero n)]
        omega

theorem maxTaskId_perm {ts ts' : List Task} (p : ts.Perm ts') :
    maxTaskId ts = maxTaskId ts' := by
  unfold maxTaskId
  letI : RightCommutative (fun (a : Nat) (t : Task) => max a t.id) :=
    ⟨fun b t u => by omega⟩
  exact p.foldl_eq 0

theorem updateTask_comp (ts : List Task) (k : Nat) (f g : Task → Task)
    (hg : ∀ u, (g u).id = u.id) :
    updateTask (updateTask ts k g) k f = updateTask ts k (fun u => f (g u)) := by
  unfold updateTask
  rw [List.map_map]
  apply List.map_congr_left
  intro u _
  by_cases hu : u.id = k
  · simp [hu, hg]
  · simp [hu]

theorem flatten_mem_decomp :
    ∀ (l : List Task) (t : Task), t ∈ l →
      ∃ pre post, (l.map listLine).flatten = pre ++ (listLine t ++ post) := by
  intro l
  induction l with
  | nil => intro t ht; cases ht
  | cons u us ih =>
      intro t ht
      rcases List.mem_cons.mp ht with h' | h'
      · subst h'
        exact ⟨[], ((us.map listLine).flatten), by simp⟩
      · obtain ⟨p, q, hpq⟩ := ih t h'
        refine ⟨listLine u ++ p, q, ?_⟩
        rw [List.map_cons, List.flatten_cons, hpq, List.append_assoc]

/-! ### Claim theorems -/

/-- C7: when the backing file does not exist at store construction, the
store starts with an empty mapping and `next_id = 1` (and no file is
created).  Load happens exactly once, inside `TaskManager.new` — in this
embedding `TaskManager.new` is the only place `load_from_file` is invoked,
mirroring the source, where only `new` calls `load_from_file`. -/
theorem c7_fresh_store : TaskManager.new none = ⟨[], 1, none⟩ := rfl

/-- C4: when id `k` is absent from the mapping, `mark_completed`,
`mark_deleted` and `delete_task` all report the not-found condition (the
printed message is their only caller-visible result: the Rust methods
return `()`), mutate nothing, and trigger no save — the entire state,
including the backing file byte-for-byte, is returned unchanged. -/
theorem c4_not_found (m : TaskManager) (k : Nat)
    (h : findTask m.tasks k = none) :
    m.mark_completed k = (m, notFoundMsg k) ∧
    m.mark_deleted k = (m, notFoundMsg k) ∧
    m.delete_task k = (m, notFoundMsg k) := by
  refine ⟨?_, ?_, ?_⟩
  · rw [TaskManager.mark_completed, h]
  · rw [TaskManager.mark_deleted, h]
  · rw [TaskManager.delete_task, h]
    rfl

/-- C4 witness: the spec's scenario — `markCompleted(99)` on a store with
no id 99 reports not-found and leaves the state (file included)
unchanged. -/
theorem c4_witness :
    findTask (TaskManager.new (some ("1|a|b|Pending\n".toList))).tasks 99 =
        none ∧
    TaskManager.mark_completed
        (TaskManager.new (some ("1|a|b|Pending\n".toList))) 99 =
      (TaskManager.new (some ("1|a|b|Pending\n".toList)), notFoundMsg 99) :=
  ⟨by decide, (c4_not_found _ 99 (by decide)).1⟩

/-- C3 (amended): `add_task` allocates `id = next_id`, inserts a `Pending`
task with the given (arbitrary, possibly empty) title and description,
increments `next_id` (with `u32` wrap-around), rewrites the backing file
from the whole mapping, always succeeds, and prints nothing.  The amendment
drops the claim's "returns the assigned id to the caller": the source
method returns `()` and prints nothing, so the id is not returned (see
`c3_counterexample`). -/
theorem c3_create (m : TaskManager) (title description : List Char) :
    findTask (m.add_task title description).1.tasks m.next_id =
      some (Task.new m.next_id title description) ∧
    (m.add_task title description).1.next_id = (m.next_id + 1) % 2 ^ 32 ∧
    (m.add_task title description).1.file =
      some (serializeTasks (m.add_task title description).1.tasks) ∧
    (m.add_task title description).2 = [] ∧
    ((TaskManager.new none).add_task ("Buy milk".toList) ("2%".toList)).1.file =
      some ("1|Buy milk|2%|Pending\n".toList) := by
  refine ⟨?_, rfl, rfl, rfl, by decide⟩
  have hid : (Task.new m.next_id title description).id = m.next_id := rfl
  rw [show (m.add_task title description).1.tasks =
      insertTask m.tasks (Task.new m.next_id title description) from rfl,
    findTask_insertTask, if_pos hid]

/-- C3 counterexample: `create("Buy milk","2%")` on an empty store assigns
id 1, inserts the task, and writes the file line `1|Buy milk|2%|Pending` —
but the operation's caller-visible result is only its printed output, which
is empty (the Rust `add_task` returns `()` and prints nothing), so the
assigned id 1 is *not* returned to the caller, contrary to the claim. -/
theorem c3_counterexample :
    ((TaskManager.new none).add_task ("Buy milk".toList) ("2%".toList)).2 =
        [] ∧
    ((TaskManager.new none).add_task ("Buy milk".toList) ("2%".toList)).1 =
      ⟨[⟨1, "Buy milk".toList, "2%".toList, TaskStatus.Pending⟩], 2,
        some ("1|Buy milk|2%|Pending\n".toList)⟩ := by
  decide

/-- C9: `list_tasks` prints one line for every task currently in the
mapping — `Deleted` tasks included, since the loop does not filter on
status — and is read-only: the state it returns, mapping, `next_id` and
backing file alike, is exactly the input state (`&self` in the source; no
save). -/
theorem c9_list_all (m : TaskManager) :
    (m.list_tasks).1 = m ∧
    (m.list_tasks).2 = (m.tasks.map listLine).flatten ∧
    ∀ t ∈ m.tasks, ∃ pre post,
      (m.list_tasks).2 = pre ++ (listLine t ++ post) := by
  refine ⟨rfl, rfl, ?_⟩
  intro t ht
  exact flatten_mem_decomp m.tasks t ht

/-- C9 witness: on a store holding a `Deleted` task (id 2), `list_tasks`
leaves the state unchanged and its output contains id 2's line. -/
theorem c9_witness :
    ((TaskManager.new
        (some ("1|a|b|Pending\n2|c|d|Deleted\n".toList))).list_tasks).1 =
      TaskManager.new (some ("1|a|b|Pending\n2|c|d|Deleted\n".toList)) ∧
    ∃ pre post,
      ((TaskManager.new
          (some ("1|a|b|Pending\n2|c|d|Deleted\n".toList))).list_tasks).2 =
        pre ++ (listLine ⟨2, "c".toList, "d".toList, TaskStatus.Deleted⟩ ++
          post) :=
  ⟨(c9_list_all _).1,
    (c9_list_all _).2.2 ⟨2, "c".toList, "d".toList, TaskStatus.Deleted⟩
      (by decide)⟩

/-- The present-case of `mark_completed`, as an explicit state equation. -/
theorem mark_completed_eq {m : TaskManager} {k : Nat} {t : Task}
    (h : findTask m.tasks k = some t) :
    m.mark_completed k =
      (⟨updateTask m.tasks k Task.mark_completed, m.next_id,
        some (serializeTasks (updateTask m.tasks k Task.mark_completed))⟩,
        []) := by
  rw [TaskManager.mark_completed, h]

/-- The present-case of `mark_deleted`, as an explicit state equation. -/
theorem mark_deleted_eq {m : TaskManager} {k : Nat} {t : Task}
    (h : findTask m.tasks k = some t) :
    m.mark_deleted k =
      (⟨updateTask m.tasks k Task.mark_deleted, m.next_id,
        some (serializeTasks (updateTask m.tasks k Task.mark_deleted))⟩,
        []) := by
  rw [TaskManager.mark_deleted, h]

/-- C5: for any task present under id `k` — whatever its current status —
`mark_completed` sets the status to `Completed` and `mark_deleted` sets it
to `Deleted`, unconditionally and with no error report (empty output);
re-marking an already-marked task is an exact no-op on the whole state
(idempotence), and the two marks freely overwrite each other in either
order. -/
theorem c5_mark_unconditional (m : TaskManager) (k : Nat) (t : Task)
    (h : findTask m.tasks k = some t) :
    findTask (m.mark_completed k).1.tasks k = some (Task.mark_completed t) ∧
    findTask (m.mark_deleted k).1.tasks k = some (Task.mark_deleted t) ∧
    (m.mark_completed k).2 = [] ∧
    (m.mark_deleted k).2 = [] ∧
    TaskManager.mark_completed (m.mark_completed k).1 k = m.mark_completed k ∧
    findTask ((m.mark_completed k).1.mark_deleted k).1.tasks k =
      some (Task.mark_deleted t) ∧
    findTask ((m.mark_deleted k).1.mark_completed k).1.tasks k =
      some (Task.mark_completed t) := by
  have hpc := mark_completed_eq h
  have hpd := mark_deleted_eq h
  have hfc : findTask (updateTask m.tasks k Task.mark_completed) k =
      some (Task.mark_completed t) := by
    rw [findTask_updateTask Task.mark_completed (fun _ => rfl), h]
    rfl
  have hfd : findTask (updateTask m.tasks k Task.mark_deleted) k =
      some (Task.mark_deleted t) := by
    rw [findTask_updateTask Task.mark_deleted (fun _ => rfl), h]
    rfl
  have hk2 : findTask (m.mark_completed k).1.tasks k =
      some (Task.mark_completed t) := by
    rw [hpc]
    exact hfc
  have hk3 : findTask (m.mark_deleted k).1.tasks k =
      some (Task.mark_deleted t) := by
    rw [hpd]
    exact hfd
  refine ⟨hk2, hk3, by rw [hpc], by rw [hpd], ?_, ?_, ?_⟩
  · have hs2 := mark_completed_eq hk2
    rw [hs2]
    simp only [hpc]
    have hupd : updateTask (updateTask m.tasks k Task.mark_completed) k
        Task.mark_completed = updateTask m.tasks k Task.mark_completed := by
      rw [updateTask_comp m.tasks k Task.mark_completed Task.mark_completed
        (fun _ => rfl)]
      have hfun : (fun u => Task.mark_completed (Task.mark_completed u)) =
          Task.mark_completed := funext fun _ => rfl
      rw [hfun]
    rw [hupd]
  · have hs3 := mark_deleted_eq hk2
    rw [hs3]
    simp only [hpc]
    rw [findTask_updateTask Task.mark_deleted (fun _ => rfl), hfc]
    rfl
  · have hs4 := mark_completed_eq hk3
    rw [hs4]
    simp only [hpd]
    rw [findTask_updateTask Task.mark_completed (fun _ => rfl), hfd]
    rfl

/-- C5 witness: on a store whose task 7 is already `Completed`, marking it
completed again is a no-op (still `Completed`), and marking it deleted
afterwards overwrites the terminal status. -/
theorem c5_witness :
    findTask (TaskManager.new
        (some ("7|x|y|Completed\n".toList))).tasks 7 =
      some ⟨7, "x".toList, "y".toList, TaskStatus.Completed⟩ ∧
    findTask ((TaskManager.new
        (some ("7|x|y|Completed\n".toList))).mark_completed 7).1.tasks 7 =
      some (Task.mark_completed
        ⟨7, "x".toList, "y".toList, TaskStatus.Completed⟩) ∧
    findTask (((TaskManager.new
        (some ("7|x|y|Completed\n".toList))).mark_completed 7).1.mark_deleted
          7).1.tasks 7 =
      some (Task.mark_deleted
        ⟨7, "x".toList, "y".toList, TaskStatus.Completed⟩) :=
  ⟨by decide,
    (c5_mark_unconditional _ 7 _ (by decide)).1,
    (c5_mark_unconditional _ 7 _ (by decide)).2.2.2.2.2.1⟩

/-- C1: round-trip.  For every sequence of operations driven with clean
titles/descriptions (no `'|'`, no `'\n'`) from a fresh store, serializing
the resulting mapping in *any* iteration order `p` and loading that file
into a fresh store yields exactly the same id-to-task mapping — ids,
titles, descriptions and statuses all survive, independent of line
order. -/
theorem c1_roundtrip (ops : List Op) (hcl : cleanOps ops = true)
    (p : List Task) (hp : p.Perm (run ops).tasks) (k : Nat) :
    findTask (TaskManager.new (some (serializeTasks p))).tasks k =
      findTask (run ops).tasks k := by
  obtain ⟨hu, hmem, -⟩ : StoreOk (run ops) := runA_ok ops _ new_none_ok hcl
  have hup : uniqueKeys p := uniqueKeys_perm hu hp.symm
  have hacc : acceptedTasks (serializeTasks p) = p :=
    acceptedTasks_serializeTasks
      (fun t ht => (hmem t (hp.subset ht)).1)
      (fun t ht => (hmem t (hp.subset ht)).2)
  rw [show (TaskManager.new (some (serializeTasks p))).tasks =
      (load_from_file (some (serializeTasks p))).1 from rfl,
    load_tasks, hacc, findTask_foldl_insertTask_nil]
  have hrev : findTask p.reverse k = findTask p k :=
    findTask_perm (uniqueKeys_perm hup (List.reverse_perm p).symm)
      (List.reverse_perm p) k
  rw [hrev]
  exact findTask_perm hup hp k

/-- C1 witness: two creates and a completion; saving the mapping in reversed
iteration order and reloading reproduces both tasks' lookups exactly. -/
theorem c1_witness :
    cleanOps [Op.create ("a".toList) ("b".toList),
      Op.create ("c".toList) ("d".toList), Op.complete 1] = true ∧
    List.Perm
      [⟨2, "c".toList, "d".toList, TaskStatus.Pending⟩,
        ⟨1, "a".toList, "b".toList, TaskStatus.Completed⟩]
      (run [Op.create ("a".toList) ("b".toList),
        Op.create ("c".toList) ("d".toList), Op.complete 1]).tasks ∧
    findTask (TaskManager.new (some (serializeTasks
        [⟨2, "c".toList, "d".toList, TaskStatus.Pending⟩,
          ⟨1, "a".toList, "b".toList, TaskStatus.Completed⟩]))).tasks 1 =
      findTask (run [Op.create ("a".toList) ("b".toList),
        Op.create ("c".toList) ("d".toList), Op.complete 1]).tasks 1 :=
  ⟨by decide, by decide,
    c1_roundtrip _ (by decide) _ (by decide) 1⟩

/-- C2 (amended): within one store lifetime — a run from a fresh store in
which `u32` overflow never occurs (fewer than `2^32 - 1` creates) —
`next_id` strictly exceeds every id ever assigned and equals
`1 + max(assigned ids)` (`1` when none); and reloading the saved mapping
(in any iteration order) seeds `next_id` to one greater than the largest id
*accepted from the file*, i.e. the largest surviving id.  The amendment
scopes "every id ever assigned" to the current lifetime: across a reload
the seed is computed from the surviving tasks only, so ids assigned before
the reload but hard-deleted need not be exceeded (see
`c2_counterexample`). -/
theorem c2_next_id_invariant (ops : List Op) (hcl : cleanOps ops = true)
    (hcnt : countCreates ops + 1 < 2 ^ 32) :
    (∀ i ∈ (runA (TaskManager.new none) ops).2,
        i < (runA (TaskManager.new none) ops).1.next_id) ∧
    (runA (TaskManager.new none) ops).1.next_id =
      maxIds (runA (TaskManager.new none) ops).2 + 1 ∧
    (∀ p, p.Perm (runA (TaskManager.new none) ops).1.tasks →
      (TaskManager.new (some (serializeTasks p))).next_id =
        maxTaskId (runA (TaskManager.new none) ops).1.tasks + 1) := by
  have hb : (TaskManager.new none).next_id + countCreates ops < 2 ^ 32 := by
    show 1 + countCreates ops < 2 ^ 32
    omega
  have h1 : (TaskManager.new none).next_id = 1 := rfl
  have hnext := runA_next_id ops (TaskManager.new none) hb
  have hass := runA_assigned ops (TaskManager.new none) hb
  rw [h1] at hnext hass
  refine ⟨?_, ?_, ?_⟩
  · intro i hi
    rw [hass] at hi
    have hmem := List.mem_range'_1.mp hi
    rw [hnext]
    omega
  · rw [hnext, hass, maxIds_range']
    by_cases h0 : countCreates ops = 0
    · simp [h0]
    · rw [if_neg h0]
      omega
  · intro p hp
    obtain ⟨hu, hmem, -⟩ : StoreOk (runA (TaskManager.new none) ops).1 :=
      runA_ok ops _ new_none_ok hcl
    have hlt : ∀ t ∈ (runA (TaskManager.new none) ops).1.tasks,
        t.id < (runA (TaskManager.new none) ops).1.next_id :=
      runA_tasks_lt ops _ hb fun t ht => absurd ht (List.not_mem_nil t)
    have hidb : ∀ t ∈ (runA (TaskManager.new none) ops).1.tasks,
        t.id + 1 < 2 ^ 32 := by
      intro t ht
      have := hlt t ht
      rw [hnext] at this
      omega
    have haccp : acceptedTasks (serializeTasks p) = p :=
      acceptedTasks_serializeTasks (fun t ht => (hmem t (hp.subset ht)).1)
        (fun t ht => (hmem t (hp.subset ht)).2)
    have hseed : (TaskManager.new (some (serializeTasks p))).next_id =
        (load_from_file (some (serializeTasks p))).2 := rfl
    rw [hseed, load_next_id_eq (by
      rw [haccp]
      intro t ht
      exact hidb t (hp.subset ht)), haccp]
    have hfs : p.foldl (fun a t => max a (t.id + 1)) 1 =
        p.foldl (fun a t => max a t.id) 0 + 1 := foldl_max_succ p 0
    rw [hfs]
    have hmp : maxTaskId p = maxTaskId (runA (TaskManager.new none) ops).1.tasks :=
      maxTaskId_perm hp
    unfold maxTaskId at hmp
    rw [hmp]
    rfl

/-- C2 witness: two creates then a hard delete of id 1; the assigned ids
are `[1, 2]`, both below `next_id = 3 = maxIds [1,2] + 1`, and reloading
the surviving mapping `[task 2]` seeds `next_id = 3 = maxTaskId + 1`. -/
theorem c2_witness :
    cleanOps [Op.create ("a".toList) ("b".toList),
      Op.create ("c".toList) ("d".toList), Op.hardDelete 1] = true ∧
    countCreates [Op.create ("a".toList) ("b".toList),
      Op.create ("c".toList) ("d".toList), Op.hardDelete 1] + 1 < 2 ^ 32 ∧
    2 < (runA (TaskManager.new none)
      [Op.create ("a".toList) ("b".toList),
        Op.create ("c".toList) ("d".toList), Op.hardDelete 1]).1.next_id ∧
    (runA (TaskManager.new none)
        [Op.create ("a".toList) ("b".toList),
          Op.create ("c".toList) ("d".toList), Op.hardDelete 1]).1.next_id =
      maxIds (runA (TaskManager.new none)
        [Op.create ("a".toList) ("b".toList),
          Op.create ("c".toList) ("d".toList), Op.hardDelete 1]).2 + 1 ∧
    (TaskManager.new (some (serializeTasks
        [⟨2, "c".toList, "d".toList, TaskStatus.Pending⟩]))).next_id =
      maxTaskId (runA (TaskManager.new none)
        [Op.create ("a".toList) ("b".toList),
          Op.create ("c".toList) ("d".toList), Op.hardDelete 1]).1.tasks + 1 :=
  ⟨by decide, by decide,
    (c2_next_id_invariant _ (by decide) (by decide)).1 2 (by decide),
    (c2_next_id_invariant _ (by decide) (by decide)).2.1,
    (c2_next_id_invariant _ (by decide) (by decide)).2.2
      [⟨2, "c".toList, "d".toList, TaskStatus.Pending⟩] (by decide)⟩

/-- C2 counterexample: create ids 1 and 2, hard-delete 2, then save/reload.
Id 2 was assigned during the sequence, but the reloaded store's `next_id`
is `2`, which does **not** strictly exceed 2 — and the very next create
assigns id 2 again.  This refutes "next_id strictly exceeds every id ever
assigned ... (including ... a save/reload cycle)": load seeds `next_id`
from the ids surviving in the file, not from all ids ever assigned. -/
theorem c2_counterexample :
    (runA (TaskManager.new none)
      [Op.create ("a".toList) ("b".toList),
        Op.create ("c".toList) ("d".toList), Op.hardDelete 2]).2 = [1, 2] ∧
    (TaskManager.new (some (serializeTasks (runA (TaskManager.new none)
        [Op.create ("a".toList) ("b".toList),
          Op.create ("c".toList) ("d".toList),
          Op.hardDelete 2]).1.tasks))).next_id = 2 ∧
    findTask ((TaskManager.new (some (serializeTasks
        (runA (TaskManager.new none)
          [Op.create ("a".toList) ("b".toList),
            Op.create ("c".toList) ("d".toList),
            Op.hardDelete 2]).1.tasks))).add_task
        ("e".toList) ("f".toList)).1.tasks 2 =
      some ⟨2, "e".toList, "f".toList, TaskStatus.Pending⟩ := by
  decide

/-- C8 (amended): for a store containing id `k` with the `next_id`
invariant intact (`k < next_id`, true of every store reachable without
overflow), `delete_task k` removes the task from the mapping, saves the
whole mapping to the file, prints nothing, and afterwards no listed task
has id `k`; and as long as `u32` overflow cannot occur in the remaining run
(`next_id + #creates ≤ 2^32`), no future `create` ever assigns `k` again.
The amendment adds the two no-overflow side conditions: with wrap-around
(or, in a debug build, a panic) at `2^32`, ids can in fact be reused (see
`c8_counterexample`). -/
theorem c8_hard_delete (m : TaskManager) (k : Nat) (ops : List Op)
    (hk : (findTask m.tasks k).isSome = true)
    (hlt : k < m.next_id)
    (hcnt : m.next_id + countCreates ops ≤ 2 ^ 32) :
    findTask (m.delete_task k).1.tasks k = none ∧
    (m.delete_task k).1.file =
      some (serializeTasks (m.delete_task k).1.tasks) ∧
    (m.delete_task k).2 = [] ∧
    (∀ t ∈ (m.delete_task k).1.tasks, t.id ≠ k) ∧
    (∀ i ∈ (runA (m.delete_task k).1 ops).2, i ≠ k) := by
  have hpair : m.delete_task k =
      (⟨removeTask m.tasks k, m.next_id,
        some (serializeTasks (removeTask m.tasks k))⟩, []) := by
    rw [TaskManager.delete_task, if_pos hk]
  have hni : (m.delete_task k).1.next_id = m.next_id :=
    step_next_id_hardDelete m k
  refine ⟨?_, ?_, ?_, ?_, ?_⟩
  · rw [hpair]
    exact findTask_removeTask m.tasks k
  · rw [hpair]
  · rw [hpair]
  · rw [hpair]
    exact fun t ht => (mem_removeTask ht).2
  · intro i hi
    have hge := runA_assigned_ge ops (m.delete_task k).1
      (by rw [hni]; exact hcnt) i hi
    rw [hni] at hge
    omega

/-- C8 witness: the spec's scenario — on a store with ids 1 and 2
(`next_id = 3`), hard-deleting 1 removes it, and a subsequent create
assigns id 3, not 1. -/
theorem c8_witness :
    (findTask (TaskManager.new
        (some ("1|a|b|Pending\n2|c|d|Pending\n".toList))).tasks 1).isSome =
      true ∧
    1 < (TaskManager.new
        (some ("1|a|b|Pending\n2|c|d|Pending\n".toList))).next_id ∧
    (TaskManager.new
        (some ("1|a|b|Pending\n2|c|d|Pending\n".toList))).next_id +
      countCreates [Op.create ("e".toList) ("f".toList)] ≤ 2 ^ 32 ∧
    findTask ((TaskManager.new
        (some ("1|a|b|Pending\n2|c|d|Pending\n".toList))).delete_task
          1).1.tasks 1 = none ∧
    (∀ i ∈ (runA ((TaskManager.new
        (some ("1|a|b|Pending\n2|c|d|Pending\n".toList))).delete_task 1).1
        [Op.create ("e".toList) ("f".toList)]).2, i ≠ 1) ∧
    (runA ((TaskManager.new
        (some ("1|a|b|Pending\n2|c|d|Pending\n".toList))).delete_task 1).1
        [Op.create ("e".toList) ("f".toList)]).2 = [3] :=
  ⟨by decide, by decide, by decide,
    (c8_hard_delete _ 1 [Op.create ("e".toList) ("f".toList)]
      (by decide) (by decide) (by decide)).1,
    (c8_hard_delete _ 1 [Op.create ("e".toList) ("f".toList)]
      (by decide) (by decide) (by decide)).2.2.2.2,
    by decide⟩

/-- C8 counterexample: load a file whose largest id is `4294967294 =
u32::MAX - 1` (so `next_id` seeds to `u32::MAX`) together with id 1.  One
create assigns `4294967295` and wraps `next_id` to `0` (a debug build
panics right here — either way the claim fails).  After hard-deleting id 1,
two further creates assign ids `0` and then `1`: a future create reuses the
hard-deleted id `k = 1`, and the run even re-inserts a task with id 1. -/
theorem c8_counterexample :
    findTask ((runA (TaskManager.new
        (some ("1|x|y|Pending\n4294967294|a|b|Pending".toList)))
        [Op.create ("t".toList) ("d".toList), Op.hardDelete 1]).1).tasks 1 =
      none ∧
    (runA (TaskManager.new
        (some ("1|x|y|Pending\n4294967294|a|b|Pending".toList)))
        [Op.create ("t".toList) ("d".toList), Op.hardDelete 1,
          Op.create ("t".toList) ("d".toList),
          Op.create ("t".toList) ("d".toList)]).2 = [4294967295, 0, 1] ∧
    findTask ((runA (TaskManager.new
        (some ("1|x|y|Pending\n4294967294|a|b|Pending".toList)))
        [Op.create ("t".toList) ("d".toList), Op.hardDelete 1,
          Op.create ("t".toList) ("d".toList),
          Op.create ("t".toList) ("d".toList)]).1).tasks 1 =
      some ⟨1, "t".toList, "d".toList, TaskStatus.Pending⟩ := by
  decide

/-- C10 (amended): when the backing file contains several accepted lines
with the same id, load keeps exactly one task per id — lookup returns the
task from the *last* such line (searching the accepted lines in reverse),
so the `HashMap` keys stay unique; and provided every accepted id is below
`u32::MAX` (so `id + 1` cannot overflow), `next_id` ends strictly greater
than every accepted id.  The amendment adds that proviso: at
`id = u32::MAX` the seed update wraps to 0 in a release build (panics in
debug) and `next_id` stays behind (see `c10_counterexample`). -/
theorem c10_duplicate_ids (file : List Char)
    (h : idsBelowMax (acceptedTasks file) = true) :
    uniqueKeys (TaskManager.new (some file)).tasks ∧
    (∀ k, findTask (TaskManager.new (some file)).tasks k =
        findTask (acceptedTasks file).reverse k) ∧
    (∀ t ∈ acceptedTasks file, t.id < (TaskManager.new (some file)).next_id) := by
  refine ⟨uniqueKeys_load (some file), ?_, ?_⟩
  · intro k
    rw [show (TaskManager.new (some file)).tasks =
        (load_from_file (some file)).1 from rfl,
      load_tasks, findTask_foldl_insertTask_nil]
  · have hb : ∀ t ∈ acceptedTasks file, t.id + 1 < 2 ^ 32 := by
      intro t ht
      have := List.all_eq_true.mp h t ht
      have hlt : t.id < 2 ^ 32 - 1 := of_decide_eq_true this
      omega
    intro t ht
    exact load_next_id_gt hb t ht

/-- C10 witness: a file with two accepted lines for id 7 loads to a single
task — the second line's — with unique keys and `next_id = 8 > 7`. -/
theorem c10_witness :
    idsBelowMax (acceptedTasks
        ("7|a|b|Pending\n7|c|d|Completed".toList)) = true ∧
    findTask (TaskManager.new
        (some ("7|a|b|Pending\n7|c|d|Completed".toList))).tasks 7 =
      findTask (acceptedTasks
        ("7|a|b|Pending\n7|c|d|Completed".toList)).reverse 7 ∧
    findTask (TaskManager.new
        (some ("7|a|b|Pending\n7|c|d|Completed".toList))).tasks 7 =
      some ⟨7, "c".toList, "d".toList, TaskStatus.Completed⟩ ∧
    7 < (TaskManager.new
        (some ("7|a|b|Pending\n7|c|d|Completed".toList))).next_id :=
  ⟨by decide,
    (c10_duplicate_ids _ (by decide)).2.1 7,
    by decide,
    (c10_duplicate_ids _ (by decide)).2.2
      ⟨7, "c".toList, "d".toList, TaskStatus.Completed⟩ (by decide)⟩

/-- C10 counterexample: two accepted lines both carrying id `4294967295`
(`u32::MAX`).  The last line wins and keys stay unique — but `next_id` ends
at `1`, *not* strictly greater than the accepted id: the seed update
`max(next_id, id + 1)` wraps `u32::MAX + 1` to 0 in a release build (a
debug build panics at that addition), refuting the claim's final clause. -/
theorem c10_counterexample :
    (TaskManager.new (some
        ("4294967295|a|b|Pending\n4294967295|c|d|Completed".toList))).tasks =
      [⟨4294967295, "c".toList, "d".toList, TaskStatus.Completed⟩] ∧
    (TaskManager.new (some
        ("4294967295|a|b|Pending\n4294967295|c|d|Completed".toList))).next_id =
      1 := by
  decide

/-- C6 (amended): a line of the backing file is accepted — inserted into
the mapping — if and only if splitting it on `'|'` yields exactly four
fields, the first parses as a `u32` (a non-negative integer *that fits in
32 bits*; the source uses `str::parse::<u32>`, which rejects larger
values), and the fourth is exactly one of the three status tokens; any
other line leaves the load state untouched and later lines are still
processed (the fold continues).  The spec scenario holds: a file with
`2|Bad|Row` and `3|Ok|Desc|Pending` loads exactly one task, id 3, with
`next_id = 4`.  The amendment tightens "parses as a non-negative integer"
to "parses as a u32" (see `c6_counterexample`). -/
theorem c6_line_acceptance :
    (∀ line : List Char,
        (parseLine line).isSome = true ↔
          ∃ f0 f1 f2 f3, splitPipe line = [f0, f1, f2, f3] ∧
            (parseU32 f0).isSome = true ∧ (parseStatus f3).isSome = true) ∧
    (∀ (acc : List Task × Nat) (line : List Char), parseLine line = none →
        loadFold acc line = acc) ∧
    (TaskManager.new (some ("2|Bad|Row\n3|Ok|Desc|Pending".toList))).tasks =
      [⟨3, "Ok".toList, "Desc".toList, TaskStatus.Pending⟩] ∧
    (TaskManager.new (some ("2|Bad|Row\n3|Ok|Desc|Pending".toList))).next_id =
      4 := by
  refine ⟨?_, ?_, by decide, by decide⟩
  · intro line
    constructor
    · intro h
      rw [parseLine] at h
      split at h
      next f0 f1 f2 f3 heq =>
        split at h
        next id hp =>
          split at h
          next st hq =>
            exact ⟨f0, f1, f2, f3, heq, by rw [hp]; rfl, by rw [hq]; rfl⟩
          next hq => simp at h
        next hp => simp at h
      next => simp at h
    · rintro ⟨f0, f1, f2, f3, hs, hp, hq⟩
      rw [parseLine, hs]
      obtain ⟨id, hid⟩ := Option.isSome_iff_exists.mp hp
      obtain ⟨st, hst⟩ := Option.isSome_iff_exists.mp hq
      simp [hid, hst]
  · intro acc line h
    rw [loadFold, h]

/-- C6 witness: the acceptance criterion instantiated — the valid line
`9|a|b|Deleted` is accepted and decomposes into four fields with a `u32`
first field and a status-token fourth field, while the malformed line
`2|Bad|Row` leaves the load state untouched. -/
theorem c6_witness :
    (parseLine ("9|a|b|Deleted".toList)).isSome = true ∧
    (∃ f0 f1 f2 f3, splitPipe ("9|a|b|Deleted".toList) = [f0, f1, f2, f3] ∧
      (parseU32 f0).isSome = true ∧ (parseStatus f3).isSome = true) ∧
    loadFold ([], 1) ("2|Bad|Row".toList) = ([], 1) :=
  ⟨by decide,
    (c6_line_acceptance.1 ("9|a|b|Deleted".toList)).mp (by decide),
    c6_line_acceptance.2.1 ([], 1) ("2|Bad|Row".toList) (by decide)⟩

/-- C6 counterexample: the single-line file `4294967296|Ok|Desc|Pending`.
It splits into exactly four fields, the first field parses as a
non-negative integer (`4294967296`, per the spec's own unbounded reading,
`specParseNat`), and the fourth field is a valid status token — so the
claim says the line is accepted.  But `4294967296 = 2^32` overflows `u32`,
`str::parse::<u32>` returns an error in every build profile, and the load
silently skips the line: the store comes up empty with `next_id = 1`. -/
theorem c6_counterexample :
    splitPipe ("4294967296|Ok|Desc|Pending".toList) =
      ["4294967296".toList, "Ok".toList, "Desc".toList, "Pending".toList] ∧
    specParseNat ("4294967296".toList) = some 4294967296 ∧
    (parseStatus ("Pending".toList)).isSome = true ∧
    (TaskManager.new (some ("4294967296|Ok|Desc|Pending".toList))).tasks =
      [] ∧
    (TaskManager.new (some ("4294967296|Ok|Desc|Pending".toList))).next_id =
      1 := by
  decide

end Tracker
